import Mathlib

/-!
Verification development for the `ana-opening-book` analyzer
(`src/analyze.cpp`, `src/utils.hpp`, plus the earlier variant of
`analyze.cpp` kept in the repository).

The C++ code is shallowly embedded: the per-game visitor state becomes a
record, the concurrent hash map `occurance_map` becomes an association
list keyed by the position string, and `std::exit(1)` paths become
`Option.none`.  `double` draw rates are modelled as exact rationals
(`ℚ`): equal rationals always round to equal doubles, and every claim
settled here is insensitive to the residual difference (unequal
rationals rounding to the same double only moves a comparison from the
draw-rate test to the tie-break chain).
-/

namespace AnaBook

/-- `enum class Result { WIN, DRAW, LOSS, UNKNOWN }` from `analyze.cpp`. -/
inductive Result where
  | WIN
  | DRAW
  | LOSS
  | UNKNOWN
deriving DecidableEq, Repr

/-- `struct Statistics` from `analyze.cpp`: per-position outcome counters. -/
structure Statistics where
  wins : Nat
  draws : Nat
  losses : Nat
deriving DecidableEq, Repr

/-- `Statistics::total`: `wins + draws + losses`. -/
def Statistics.total (s : Statistics) : Nat := s.wins + s.draws + s.losses

/-- `Statistics::draw_rate`: `double(draws) / total()`, modelled as an exact
rational.  (For table entries `total` is always positive, see claim C10, so
the `0/0` corner where the double would be NaN is never reached.) -/
def Statistics.draw_rate (s : Statistics) : ℚ := (s.draws : ℚ) / (s.total : ℚ)

/-- `Statistics::operator<` from `analyze.cpp`, the comparator handed to
`std::sort` in `write_results`.  Transcribed branch by branch. -/
def Statistics.lt (a b : Statistics) : Bool :=
  if a.draw_rate = b.draw_rate then
    if a.total = b.total then
      if a.wins = b.wins then
        if a.draws = b.draws then
          decide (a.losses > b.losses)
        else
          decide (a.draws > b.draws)
      else
        decide (a.wins > b.wins)
    else
      decide (a.total > b.total)
  else
    decide (a.draw_rate < b.draw_rate)

/-- Association-list lookup; models `find`/`at` on the string-keyed maps. -/
def alookup {α : Type} : List (String × α) → String → Option α
  | [], _ => none
  | (k, v) :: rest, x => if k = x then some v else alookup rest x

/-- The shared table `occurance_map`, `position key → Statistics`,
modelled as an association list. -/
abbrev Table := List (String × Statistics)

/-- The constructor call `Statistics{result == WIN, result == DRAW, result == LOSS}`
used by `lazy_emplace_l` when the key is absent. -/
def initStats (r : Result) : Statistics :=
  ⟨if r = Result.WIN then 1 else 0,
   if r = Result.DRAW then 1 else 0,
   if r = Result.LOSS then 1 else 0⟩

/-- The in-place increment lambda passed to `lazy_emplace_l` when the key
is present. -/
def bumpStats (s : Statistics) (r : Result) : Statistics :=
  if r = Result.WIN then { s with wins := s.wins + 1 }
  else if r = Result.DRAW then { s with draws := s.draws + 1 }
  else if r = Result.LOSS then { s with losses := s.losses + 1 }
  else s

/-- One `occurance_map.lazy_emplace_l(key, increment, construct)` call:
increment the existing record, or create it from the current outcome. -/
def upsertTable : Table → String → Result → Table
  | [], k, r => [(k, initStats r)]
  | (k', s) :: rest, k, r =>
    if k' = k then (k', bumpStats s r) :: rest
    else (k', s) :: upsertTable rest k r

/-- What an upsert does to the value stored at the touched key. -/
def updOpt (o : Option Statistics) (r : Result) : Statistics :=
  match o with
  | some s => bumpStats s r
  | none => initStats r

/-- Folding the aggregation upsert over a list of (position key, outcome)
game events, as the parallel analyzers do collectively. -/
def aggregate (events : List (String × Result)) (t : Table) : Table :=
  events.foldl (fun t e => upsertTable t e.1 e.2) t

/-- `chess::constants::STARTPOS`, the default FEN set by `startPgn`. -/
def STARTPOS : String := "rnbqkbnr/pppppppp/8/8/8/8/PPPPPPPP/RNBQKBNR w KQkq - 0 1"

/-- `CLIOptions` from `options.hpp` (the variant with `fixfens`).
Halfmove/fullmove pairs are `int` in the source, hence `Int`. -/
structure CLIOptions where
  fixfens : List (String × Int × Int)
  match_book : String
  dir : String
  concurrency : Int
  conclusive : Bool
  only_sprt : Bool
  allow_duplicates : Bool
  matchBookInverted : Bool

/-- The per-game mutable members of the `Analyzer` visitor. -/
structure GameState where
  result : Result
  fen : String
  valid_game : Bool
deriving Repr, DecidableEq

/-- `Analyzer::startPgn`: reset the per-game state. -/
def startPgn : GameState := ⟨Result.UNKNOWN, STARTPOS, true⟩

/-- `Analyzer::header`: one `(key, value)` header callback. -/
def header (s : GameState) (key value : String) : GameState :=
  if key = "Result" then
    if value = "1-0" then { s with result := Result.WIN }
    else if value = "0-1" then { s with result := Result.LOSS }
    else if value = "1/2-1/2" then { s with result := Result.DRAW }
    else s
  else if key = "FEN" then { s with fen := value }
  else if key = "Termination" then
    if value = "time forfeit" ∨ value = "abandoned" ∨ value = "stalled connection" ∨
        value = "illegal move" ∨ value = "unterminated" then
      { s with valid_game := false }
    else s
  else s

/-- Run the header callbacks of one game over the fresh `startPgn` state. -/
def processHeaders (hs : List (String × String)) : GameState :=
  hs.foldl (fun s kv => header s kv.1 kv.2) startPgn

/-- The sentinel test of `Analyzer::fixFen`: `std::regex_search` with
`^(.+) 0 1$` succeeds iff the string ends in `" 0 1"` with a nonempty
(greedily captured) prefix. -/
def sentinelMatch (s : String) : Bool :=
  " 0 1".data.isSuffixOf s.data && decide (5 ≤ s.data.length)

/-- The captured prefix `match[1]`: the string minus the trailing `" 0 1"`. -/
def stripSentinel (s : String) : String :=
  String.mk (s.data.take (s.data.length - 4))

/-- `Analyzer::fixFen`.  `none` models the `std::exit(1)` taken when the
sentinel matches but the correction table has no entry for the prefix. -/
def fixFen (fixfens : List (String × Int × Int)) (s : String) : Option String :=
  if fixfens ≠ [] ∧ sentinelMatch s then
    match alookup fixfens (stripSentinel s) with
    | none => none
    | some hf =>
      some (stripSentinel s ++ " " ++ toString hf.1 ++ " " ++ toString hf.2)
  else
    some s

/-- The process-wide state mutated by `Analyzer::startMoves`:
`occurance_map` and the `total_games` counter. -/
structure GlobalState where
  occurance_map : Table
  total_games : Nat
deriving Repr, DecidableEq

/-- `Analyzer::startMoves`: the headers-complete transition.  Skip the game
if the outcome is unknown or the game was invalidated; otherwise normalize
the FEN, upsert once and bump `total_games` once.  `none` models the fatal
`fixFen` exit. -/
def startMoves (opts : CLIOptions) (g : GameState) (st : GlobalState) : Option GlobalState :=
  if g.result = Result.UNKNOWN ∨ g.valid_game = false then some st
  else
    match fixFen opts.fixfens g.fen with
    | none => none
    | some fixed_fen =>
      some ⟨upsertTable st.occurance_map fixed_fen g.result, st.total_games + 1⟩

/-- Process a sequence of games (each given by its headers-complete state)
through `startMoves`. -/
def runGames (opts : CLIOptions) : GlobalState → List GameState → Option GlobalState
  | st, [] => some st
  | st, g :: rest =>
    match startMoves opts g st with
    | none => none
    | some st' => runGames opts st' rest

/-- Sum of `total` over all table entries. -/
def tableTotal (t : Table) : Nat := (t.map (fun e => e.2.total)).sum

/-- One insertion step of the sort model: place an entry into an already
sorted row list according to `Statistics::operator<` on the value part
(the lambda `a.second < b.second` passed to `std::sort`). -/
def insertEntry (e : String × Statistics) : List (String × Statistics) → List (String × Statistics)
  | [] => [e]
  | f :: rest =>
    if Statistics.lt e.2 f.2 then e :: f :: rest
    else f :: insertEntry e rest

/-- The `std::sort(sorted_map.begin(), sorted_map.end(), ...)` call of
`write_results`, modelled as an insertion sort with the same comparator
(`std::sort` guarantees exactly: output is a permutation of the input
that is sorted with respect to the comparator). -/
def sortEntries : List (String × Statistics) → List (String × Statistics)
  | [] => []
  | e :: rest => insertEntry e (sortEntries rest)

/-- Sorted-row order induced by the comparator: `a` may precede `b` iff
`b.second < a.second` fails. -/
def entry_le (a b : String × Statistics) : Prop := Statistics.lt b.2 a.2 = false

/-- The row sequence `write_results` (current `analyze.cpp`) emits after
the header line: every snapshot entry, sorted. -/
def write_results_rows (table : Table) : List (String × Statistics) := sortEntries table

/-- The conclusive-only retention test of the earlier `write_results(bool
conclusive)` variant, transcribed from its `continue` condition. -/
def conclusive_keep (s : Statistics) : Bool :=
  (decide (s.wins > 0) && decide (s.total = s.wins)) ||
  (decide (s.draws > 0) && decide (s.total = s.draws)) ||
  (decide (s.losses > 0) && decide (s.total = s.losses))

/-- Modelled from the spec: an entry is conclusive when exactly one of its
three counters is nonzero and that counter equals the total.  This is the
spec's wording, kept separate so it can be compared with the code's
`conclusive_keep`. -/
def spec_conclusive (s : Statistics) : Prop :=
  (s.wins ≠ 0 ∧ s.draws = 0 ∧ s.losses = 0 ∧ s.wins = s.total) ∨
  (s.draws ≠ 0 ∧ s.wins = 0 ∧ s.losses = 0 ∧ s.draws = s.total) ∨
  (s.losses ≠ 0 ∧ s.wins = 0 ∧ s.draws = 0 ∧ s.losses = s.total)

/-- Row sequence of the earlier `write_results(bool conclusive)` variant:
sorted entries, with non-conclusive entries skipped when `conclusive` is
set. -/
def write_results_conclusive_rows (conclusive : Bool) (table : Table) :
    List (String × Statistics) :=
  (sortEntries table).filter (fun e => if conclusive then conclusive_keep e.2 else true)

/-- Loop body of `split_chunks` from `utils.hpp`: repeatedly cut
`min(chunks_size, remaining)` files off the front.  The fuel argument
makes the recursion structural; `split_chunks` passes the list length,
which suffices whenever `sz ≥ 1` (the C++ loop would not terminate for
`sz = 0` and a nonempty list either). -/
def split_chunks_go (sz : Nat) : Nat → List String → List (List String)
  | _, [] => []
  | 0, _ :: _ => []
  | fuel + 1, x :: xs => (x :: xs).take sz :: split_chunks_go sz fuel ((x :: xs).drop sz)

/-- `split_chunks(pgns, target_chunks)` from `utils.hpp`. -/
def split_chunks (pgns : List String) (target_chunks : Nat) : List (List String) :=
  split_chunks_go ((pgns.length + target_chunks - 1) / target_chunks) pgns.length pgns

/-- Split a character list at its last `/`: `some (before, after)` when a
slash exists.  Backbone of the `fs::path` decompositions used below. -/
def splitLastSlash : List Char → Option (List Char × List Char)
  | [] => none
  | c :: rest =>
    match splitLastSlash rest with
    | some (pre, suf) => some (c :: pre, suf)
    | none => if c = '/' then some ([], rest) else none

/-- `fs::path(p).filename()` (POSIX): the part after the last slash. -/
def path_filename (p : String) : String :=
  match splitLastSlash p.data with
  | some (_, suf) => String.mk suf
  | none => p

/-- `fs::path(p).parent_path()` (POSIX): the part before the last slash,
`"/"` for paths directly under the root, `""` when there is no slash. -/
def path_parent (p : String) : String :=
  match splitLastSlash p.data with
  | some (pre, _) => if pre = [] then "/" else String.mk pre
  | none => ""

/-- `fs::path` `operator/` for the relative right-hand sides produced
here (a test identifier never contains a slash). -/
def path_join (dir name : String) : String :=
  if dir = "" then name
  else if dir.data.getLast? = some '/' then dir ++ name
  else dir ++ "/" ++ name

/-- `filename.substr(0, filename.find_first_of("-."))`: the filename up to
the first `-` or `.`. -/
def test_id_of (p : String) : String :=
  String.mk ((path_filename p).data.takeWhile (fun c => !(c == '-' || c == '.')))

/-- `(path.parent_path() / test_id).string()`: the canonical metadata stem
of a file. -/
def test_stem (p : String) : String :=
  path_join (path_parent p) (test_id_of p)

/-- `TestMetaData` from `test.hpp`. -/
structure TestMetaData where
  book : Option String
  sprt : Option Bool
  book_depth : Option Int
deriving Repr, DecidableEq

/-- The `remove_if` predicate of `filter_files_book`: `true` removes the
file.  `regex_book` abstracts `std::regex_match` against the configured
book pattern. -/
def book_remove_pred (meta_map : String → Option TestMetaData)
    (regex_book : String → Bool) (invert : Bool) (pathname : String) : Bool :=
  match meta_map (test_stem pathname) with
  | some md =>
    match md.book with
    | some b => if invert then regex_book b else !(regex_book b)
    | none => true
  | none => true

/-- `filter_files_book`: erase-remove of all files matching the predicate. -/
def filter_files_book (file_list : List String) (meta_map : String → Option TestMetaData)
    (regex_book : String → Bool) (invert : Bool) : List String :=
  file_list.filter (fun p => !(book_remove_pred meta_map regex_book invert p))

/-- The locals of `get_metadata`, plus a log of the successful sidecar
loads (each `meta_map[stem] = parsed json` assignment appends its stem). -/
structure MetaState where
  test_map : List (String × String)
  test_warned : List String
  meta_map : List (String × TestMetaData)
  loads : List String
deriving Repr, DecidableEq

/-- The duplicate-detection half of one `get_metadata` loop iteration:
record the first stem per test identifier, warn once per conflicting
stem, and abort (`none`, modelling `std::exit(1)`) on a fresh conflict
when duplicates are disallowed. -/
def dup_step (allow_duplicates : Bool) (st : MetaState) (pathname : String) :
    Option MetaState :=
  match alookup st.test_map (test_id_of pathname) with
  | none =>
    some { st with test_map := st.test_map ++ [(test_id_of pathname, test_stem pathname)] }
  | some first =>
    if first = test_stem pathname then some st
    else if test_stem pathname ∈ st.test_warned then some st
    else if allow_duplicates then
      some { st with test_warned := st.test_warned ++ [test_stem pathname] }
    else none

/-- The metadata-loading half of one `get_metadata` loop iteration:
load the sidecar record once per stem.  `disk` abstracts opening and
parsing `<stem>.json` (`none` = the file cannot be opened). -/
def load_step (disk : String → Option TestMetaData) (st : MetaState) (pathname : String) :
    MetaState :=
  match alookup st.meta_map (test_stem pathname) with
  | some _ => st
  | none =>
    match disk (test_stem pathname) with
    | none => st
    | some md =>
      { st with
        meta_map := st.meta_map ++ [(test_stem pathname, md)],
        loads := st.loads ++ [test_stem pathname] }

/-- One loop iteration of `get_metadata` over a single `pathname`:
duplicate check (possibly fatal), then metadata load. -/
def get_metadata_step (disk : String → Option TestMetaData) (allow_duplicates : Bool)
    (st : MetaState) (pathname : String) : Option MetaState :=
  match dup_step allow_duplicates st pathname with
  | none => none
  | some st1 => some (load_step disk st1 pathname)

/-- The `get_metadata` loop over the whole file list. -/
def get_metadata_go (disk : String → Option TestMetaData) (allow_duplicates : Bool) :
    MetaState → List String → Option MetaState
  | st, [] => some st
  | st, p :: rest =>
    match get_metadata_step disk allow_duplicates st p with
    | none => none
    | some st' => get_metadata_go disk allow_duplicates st' rest

/-- `get_metadata(file_list, allow_duplicates)` starting from empty maps. -/
def get_metadata (disk : String → Option TestMetaData) (file_list : List String)
    (allow_duplicates : Bool) : Option MetaState :=
  get_metadata_go disk allow_duplicates ⟨[], [], [], []⟩ file_list

/-- First-occurrence update of the duplicate-check map `test_map`. -/
def stepExtend (m : List (String × String)) (p : String) : List (String × String) :=
  match alookup m (test_id_of p) with
  | none => m ++ [(test_id_of p, test_stem p)]
  | some _ => m

/-- `test_map` after scanning a file list: each test identifier mapped to
the stem of its first occurrence. -/
def extendMap (m : List (String × String)) (files : List String) : List (String × String) :=
  files.foldl stepExtend m

/-- The duplicate-test conflict test for one file against the current
`test_map`: the identifier is already bound, to a different stem. -/
def stepConflict (m : List (String × String)) (p : String) : Prop :=
  ∃ v, alookup m (test_id_of p) = some v ∧ v ≠ test_stem p

/-- Stem `s` is reported while scanning `files` with initial map `m`:
some file conflicts at its processing point and has stem `s`. -/
def ConflictIn (m : List (String × String)) : List String → String → Prop
  | [], _ => False
  | p :: rest, s =>
    (stepConflict m p ∧ test_stem p = s) ∨ ConflictIn (stepExtend m p) rest s

/-- Stem `s` is offending in `files`: some file with stem `s` disagrees
with the first-occurrence stem recorded for its test identifier. -/
def OffendingStem (files : List String) (s : String) : Prop :=
  ∃ p ∈ files, test_stem p = s ∧ alookup (extendMap [] files) (test_id_of p) ≠ some (test_stem p)

/-- Two files of the list share a test identifier but have different
canonical stems (the claim's notion of a duplicate-test conflict). -/
def conflictPair (files : List String) : Prop :=
  ∃ p q, List.Sublist [p, q] files ∧ test_id_of p = test_id_of q ∧ test_stem p ≠ test_stem q

/-- Effect of the fold of upserts on the value stored at one key `k`. -/
def stepKey (k : String) (o : Option Statistics) (e : String × Result) : Option Statistics :=
  if e.1 = k then some (updOpt o e.2) else o

/-- Number of events in `events` carrying key `k` and outcome `r`. -/
def countResult (events : List (String × Result)) (k : String) (r : Result) : Nat :=
  (events.filter (fun e => decide (e.1 = k) && decide (e.2 = r))).length

/-- Number of events in `events` carrying key `k`. -/
def countKey (events : List (String × Result)) (k : String) : Nat :=
  (events.filter (fun e => decide (e.1 = k))).length

/-- Propositional reading of `Statistics.lt`: lexicographic on draw rate
ascending, then total, wins, draws, losses descending. -/
def LtKey (a b : Statistics) : Prop :=
  a.draw_rate < b.draw_rate ∨
  (a.draw_rate = b.draw_rate ∧
    (b.total < a.total ∨
      (a.total = b.total ∧
        (b.wins < a.wins ∨
          (a.wins = b.wins ∧
            (b.draws < a.draws ∨
              (a.draws = b.draws ∧ b.losses < a.losses)))))))

/-- The disqualifying `Termination` values of `Analyzer::header`. -/
def badTermination (v : String) : Prop :=
  v = "time forfeit" ∨ v = "abandoned" ∨ v = "stalled connection" ∨
  v = "illegal move" ∨ v = "unterminated"

/-- The `Result` header values that set an outcome. -/
def informativeResult (v : String) : Prop :=
  v = "1-0" ∨ v = "0-1" ∨ v = "1/2-1/2"

theorem lookup_upsertTable (t : Table) (k : String) (r : Result) (x : String) :
    alookup (upsertTable t k r) x =
      if k = x then some (updOpt (alookup t k) r) else alookup t x := by
  induction t with
  | nil => by_cases hx : k = x <;> simp [upsertTable, alookup, updOpt, hx]
  | cons e rest ih =>
    obtain ⟨k', s⟩ := e
    by_cases hk : k' = k
    · subst hk
      by_cases hx : k' = x <;> simp [upsertTable, alookup, updOpt, hx]
    · by_cases hx1 : k' = x <;> by_cases hx2 : k = x <;>
        simp_all [upsertTable, alookup, updOpt]

theorem aggregate_cons (e : String × Result) (es : List (String × Result)) (t : Table) :
    aggregate (e :: es) t = aggregate es (upsertTable t e.1 e.2) := rfl

theorem lookup_aggregate (events : List (String × Result)) (t : Table) (k : String) :
    alookup (aggregate events t) k = events.foldl (stepKey k) (alookup t k) := by
  induction events generalizing t with
  | nil => rfl
  | cons e es ih =>
    rw [aggregate_cons, ih, List.foldl_cons]
    congr 1
    rw [lookup_upsertTable]
    by_cases h : e.1 = k <;> simp [stepKey, h]

theorem initStats_eq_bump_zero (r : Result) : initStats r = bumpStats ⟨0, 0, 0⟩ r := by
  cases r <;> rfl

theorem bumpStats_comm (s : Statistics) (r1 r2 : Result) :
    bumpStats (bumpStats s r1) r2 = bumpStats (bumpStats s r2) r1 := by
  cases r1 <;> cases r2 <;> rfl

theorem stepKey_comm (k : String) (o : Option Statistics) (e1 e2 : String × Result) :
    stepKey k (stepKey k o e1) e2 = stepKey k (stepKey k o e2) e1 := by
  by_cases h1 : e1.1 = k <;> by_cases h2 : e2.1 = k <;> simp [stepKey, h1, h2]
  cases o with
  | none => simp [updOpt, initStats_eq_bump_zero, bumpStats_comm]
  | some s => simp [updOpt, bumpStats_comm]

theorem foldl_stepKey_perm (k : String) {l1 l2 : List (String × Result)} (h : l1.Perm l2) :
    ∀ o, l1.foldl (stepKey k) o = l2.foldl (stepKey k) o := by
  induction h with
  | nil => intro o; rfl
  | cons x _ ih => intro o; simp only [List.foldl_cons]; exact ih _
  | swap x y l =>
    intro o
    simp only [List.foldl_cons]
    rw [stepKey_comm]
  | trans _ _ ih1 ih2 => intro o; rw [ih1, ih2]

/-- C2: the final per-key counters depend only on the multiset of
(position-key, outcome) game events: folding the aggregation upsert over
any two permutations of the same events (in particular, over any two
interleavings of any two distributions of the events across workers)
yields tables with identical counters at every key. -/
theorem claim_C2_order_invariance (l1 l2 : List (String × Result)) (t : Table)
    (h : l1.Perm l2) (k : String) :
    alookup (aggregate l1 t) k = alookup (aggregate l2 t) k := by
  rw [lookup_aggregate, lookup_aggregate]
  exact foldl_stepKey_perm k h _

theorem claim_C2_witness :
    alookup (aggregate [("p1", Result.WIN), ("p2", Result.DRAW)] []) "p1" =
      alookup (aggregate [("p2", Result.DRAW), ("p1", Result.WIN)] []) "p1" :=
  claim_C2_order_invariance [("p1", Result.WIN), ("p2", Result.DRAW)]
    [("p2", Result.DRAW), ("p1", Result.WIN)] [] (List.Perm.swap _ _ _) "p1"

theorem countResult_le_countKey (events : List (String × Result)) (k : String) (r : Result) :
    countResult events k r ≤ countKey events k := by
  induction events with
  | nil => simp [countResult, countKey]
  | cons e es ih =>
    by_cases h1 : e.1 = k <;> by_cases h2 : e.2 = r <;>
      simp [countResult, countKey, List.filter_cons, h1, h2] at * <;> omega

theorem countKey_eq_zero_countResult (events : List (String × Result)) (k : String)
    (r : Result) (h : countKey events k = 0) : countResult events k r = 0 :=
  Nat.le_zero.mp (h ▸ countResult_le_countKey events k r)

theorem countKey_snoc (l : List (String × Result)) (e : String × Result) (k : String) :
    countKey (l ++ [e]) k = countKey l k + (if e.1 = k then 1 else 0) := by
  by_cases h : e.1 = k <;> simp [countKey, List.filter_append, h]

theorem countResult_snoc (l : List (String × Result)) (e : String × Result) (k : String)
    (r : Result) :
    countResult (l ++ [e]) k r = countResult l k r + (if e.1 = k ∧ e.2 = r then 1 else 0) := by
  by_cases h1 : e.1 = k <;> by_cases h2 : e.2 = r <;>
    simp [countResult, List.filter_append, h1, h2]

theorem foldl_stepKey_no_key (k : String) (events : List (String × Result))
    (h : countKey events k = 0) : ∀ o, events.foldl (stepKey k) o = o := by
  induction events with
  | nil => intro o; rfl
  | cons e es ih =>
    intro o
    by_cases hc : e.1 = k
    · exfalso
      simp [countKey, List.filter_cons, hc] at h
    · have hes : countKey es k = 0 := by
        simpa [countKey, List.filter_cons, hc] using h
      rw [List.foldl_cons, show stepKey k o e = o from by simp [stepKey, hc]]
      exact ih hes o

theorem scalar_counts (k : String) (events : List (String × Result))
    (hu : ∀ e ∈ events, e.2 ≠ Result.UNKNOWN) :
    (events.foldl (stepKey k) none = none → countKey events k = 0) ∧
    (∀ s, events.foldl (stepKey k) none = some s →
      s.wins = countResult events k Result.WIN ∧
      s.draws = countResult events k Result.DRAW ∧
      s.losses = countResult events k Result.LOSS ∧
      s.total = countKey events k) := by
  induction events using List.reverseRecOn with
  | nil => simp [countKey, countResult]
  | append_singleton l e ih =>
    have hu' : ∀ e' ∈ l, e'.2 ≠ Result.UNKNOWN :=
      fun e' he' => hu e' (List.mem_append_left _ he')
    have he : e.2 ≠ Result.UNKNOWN :=
      hu e (List.mem_append_right _ (List.mem_singleton_self _))
    obtain ⟨ih1, ih2⟩ := ih hu'
    rw [List.foldl_append]
    simp only [List.foldl_cons, List.foldl_nil]
    by_cases hk : e.1 = k
    · cases hacc : List.foldl (stepKey k) none l with
      | none =>
        have hck : countKey l k = 0 := ih1 hacc
        have hcr : ∀ r, countResult l k r = 0 :=
          fun r => countKey_eq_zero_countResult l k r hck
        constructor
        · intro hcontra
          simp [stepKey, hk, hacc] at hcontra
        · intro s hs
          have hs' : s = initStats e.2 := by
            simp only [stepKey, hk, if_true, if_pos, hacc, updOpt, Option.some.injEq] at hs
            exact hs.symm
          subst hs'
          rw [countResult_snoc, countResult_snoc, countResult_snoc, countKey_snoc,
            hck, hcr, hcr, hcr]
          cases hr : e.2
          all_goals try exact absurd hr he
          all_goals simp [initStats, Statistics.total, hk]
      | some s0 =>
        obtain ⟨f1, f2, f3, f4⟩ := ih2 s0 hacc
        have f4' : s0.wins + s0.draws + s0.losses = countKey l k := f4
        constructor
        · intro hcontra
          simp [stepKey, hk, hacc] at hcontra
        · intro s hs
          have hs' : s = bumpStats s0 e.2 := by
            simp only [stepKey, hk, if_true, if_pos, hacc, updOpt, Option.some.injEq] at hs
            exact hs.symm
          subst hs'
          rw [countResult_snoc, countResult_snoc, countResult_snoc, countKey_snoc]
          cases hr : e.2
          all_goals try exact absurd hr he
          all_goals refine ⟨?_, ?_, ?_, ?_⟩
          all_goals simp [bumpStats, Statistics.total, hk, f1, f2, f3]
          all_goals omega
    · have hcnt : countKey (l ++ [e]) k = countKey l k := by
        simp [countKey_snoc, hk]
      have hcntr : ∀ r, countResult (l ++ [e]) k r = countResult l k r := by
        intro r
        simp [countResult_snoc, hk]
      have hstep : stepKey k (List.foldl (stepKey k) none l) e =
          List.foldl (stepKey k) none l := by
        simp [stepKey, hk]
      rw [hstep, hcnt]
      refine ⟨ih1, ?_⟩
      intro s hs
      rw [hcntr, hcntr, hcntr]
      exact ih2 s hs

/-- C3: the first aggregated event for a key creates a record with exactly
one counter equal to 1 (never an all-zero record), and after any sequence
of aggregated events (all with a known outcome, as `startMoves`
guarantees) each key's record holds exactly the per-outcome event counts,
summing to the number of events for that key. -/
theorem claim_C3_upsert_counts :
    (initStats Result.WIN = ⟨1, 0, 0⟩ ∧ initStats Result.DRAW = ⟨0, 1, 0⟩ ∧
      initStats Result.LOSS = ⟨0, 0, 1⟩) ∧
    ∀ (events : List (String × Result)) (k : String),
      (∀ e ∈ events, e.2 ≠ Result.UNKNOWN) →
      ((alookup (aggregate events []) k = none ↔ countKey events k = 0) ∧
        ∀ s, alookup (aggregate events []) k = some s →
          s.wins = countResult events k Result.WIN ∧
          s.draws = countResult events k Result.DRAW ∧
          s.losses = countResult events k Result.LOSS ∧
          s.total = countKey events k) := by
  refine ⟨⟨rfl, rfl, rfl⟩, ?_⟩
  intro events k hu
  obtain ⟨h1, h2⟩ := scalar_counts k events hu
  rw [show alookup (aggregate events []) k = events.foldl (stepKey k) none from
    lookup_aggregate events [] k]
  refine ⟨⟨h1, ?_⟩, h2⟩
  intro hc
  exact foldl_stepKey_no_key k events hc none

theorem claim_C3_witness :
    (⟨2, 1, 0⟩ : Statistics).wins =
      countResult [("a", Result.WIN), ("a", Result.WIN), ("a", Result.DRAW)] "a" Result.WIN ∧
    (⟨2, 1, 0⟩ : Statistics).total =
      countKey [("a", Result.WIN), ("a", Result.WIN), ("a", Result.DRAW)] "a" := by
  have h := (claim_C3_upsert_counts.2
      [("a", Result.WIN), ("a", Result.WIN), ("a", Result.DRAW)] "a" (by decide)).2
      ⟨2, 1, 0⟩ (by decide)
  exact ⟨h.1, h.2.2.2⟩

theorem bumpStats_total_succ (s : Statistics) (r : Result) (h : r ≠ Result.UNKNOWN) :
    (bumpStats s r).total = s.total + 1 := by
  cases r <;> first
    | exact absurd rfl h
    | (simp [bumpStats, Statistics.total] <;> omega)

theorem initStats_total_one (r : Result) (h : r ≠ Result.UNKNOWN) :
    (initStats r).total = 1 := by
  cases r <;> simp [initStats, Statistics.total] at h ⊢

theorem tableTotal_cons (e : String × Statistics) (t : Table) :
    tableTotal (e :: t) = e.2.total + tableTotal t := by
  simp [tableTotal]

theorem tableTotal_upsert (t : Table) (k : String) (r : Result) (h : r ≠ Result.UNKNOWN) :
    tableTotal (upsertTable t k r) = tableTotal t + 1 := by
  induction t with
  | nil =>
    simp [upsertTable, tableTotal, initStats_total_one r h]
  | cons e rest ih =>
    obtain ⟨k', s⟩ := e
    by_cases hk : k' = k
    · simp only [upsertTable, hk, if_pos, tableTotal_cons]
      rw [bumpStats_total_succ s r h]
      omega
    · simp only [upsertTable, hk, if_neg, ite_false, tableTotal_cons, ih]
      omega

theorem bumpStats_total_ge (s : Statistics) (r : Result) : s.total ≤ (bumpStats s r).total := by
  cases r <;> simp [bumpStats, Statistics.total]

theorem mem_upsertTable_total_pos (t : Table) (k : String) (r : Result)
    (h : r ≠ Result.UNKNOWN) (hpos : ∀ e ∈ t, 0 < e.2.total) :
    ∀ e ∈ upsertTable t k r, 0 < e.2.total := by
  induction t with
  | nil =>
    intro e he
    simp [upsertTable] at he
    subst he
    simp [initStats_total_one r h]
  | cons f rest ih =>
    obtain ⟨k', s⟩ := f
    intro e he
    by_cases hk : k' = k
    · simp only [upsertTable, hk, if_pos, List.mem_cons] at he
      rcases he with he | he
      · subst he
        have := bumpStats_total_ge s r
        have := hpos (k', s) (List.mem_cons_self _ _)
        simp only [] at *
        rw [bumpStats_total_succ s r h]
        omega
      · exact hpos e (List.mem_cons_of_mem _ he)
    · simp only [upsertTable, hk, if_neg, ite_false, List.mem_cons] at he
      rcases he with he | he
      · subst he
        exact hpos (k', s) (List.mem_cons_self _ _)
      · exact ih (fun f hf => hpos f (List.mem_cons_of_mem _ hf)) e he

theorem startMoves_inv (opts : CLIOptions) (g : GameState) (st st' : GlobalState)
    (h : startMoves opts g st = some st')
    (hinv : st.total_games = tableTotal st.occurance_map ∧
      ∀ e ∈ st.occurance_map, 0 < e.2.total) :
    st'.total_games = tableTotal st'.occurance_map ∧
      ∀ e ∈ st'.occurance_map, 0 < e.2.total := by
  unfold startMoves at h
  by_cases hskip : g.result = Result.UNKNOWN ∨ g.valid_game = false
  · rw [if_pos hskip] at h
    injection h with h
    subst h
    exact hinv
  · rw [if_neg hskip] at h
    cases hf : fixFen opts.fixfens g.fen with
    | none =>
      rw [hf] at h
      cases h
    | some f =>
      rw [hf] at h
      injection h with h
      subst h
      have hr : g.result ≠ Result.UNKNOWN := fun hc => hskip (Or.inl hc)
      constructor
      · show st.total_games + 1 = tableTotal (upsertTable st.occurance_map f g.result)
        rw [tableTotal_upsert st.occurance_map f g.result hr, hinv.1]
      · exact mem_upsertTable_total_pos st.occurance_map f g.result hr hinv.2

theorem runGames_inv (opts : CLIOptions) (games : List GameState) :
    ∀ st st', runGames opts st games = some st' →
      (st.total_games = tableTotal st.occurance_map ∧
        ∀ e ∈ st.occurance_map, 0 < e.2.total) →
      (st'.total_games = tableTotal st'.occurance_map ∧
        ∀ e ∈ st'.occurance_map, 0 < e.2.total) := by
  induction games with
  | nil =>
    intro st st' h hinv
    injection h with h
    subst h
    exact hinv
  | cons g rest ih =>
    intro st st' h hinv
    unfold runGames at h
    cases hs : startMoves opts g st with
    | none => rw [hs] at h; cases h
    | some st1 =>
      rw [hs] at h
      exact ih st1 st' h (startMoves_inv opts g st st1 hs hinv)

/-- C10: after any sequence of games processed through `startMoves` from
the empty table, the `total_games` counter equals the sum of
`wins + draws + losses` over the whole table, every stored record has a
positive total, and hence the `draw_rate` denominator of a table entry is
never zero during report sorting. -/
theorem claim_C10_counter_invariant (opts : CLIOptions) (games : List GameState)
    (st' : GlobalState) (h : runGames opts ⟨[], 0⟩ games = some st') :
    st'.total_games = tableTotal st'.occurance_map ∧
      ∀ e ∈ st'.occurance_map, 0 < e.2.total ∧ ((e.2.total : ℚ) ≠ 0) := by
  have hbase : (0 : Nat) = tableTotal [] ∧ ∀ e ∈ ([] : Table), 0 < e.2.total := by
    simp [tableTotal]
  have hres := runGames_inv opts games ⟨[], 0⟩ st' h hbase
  refine ⟨hres.1, fun e he => ⟨hres.2 e he, ?_⟩⟩
  have h2 : e.2.total ≠ 0 := Nat.pos_iff_ne_zero.mp (hres.2 e he)
  exact_mod_cast h2

theorem claim_C10_witness :
    (⟨[(STARTPOS, ⟨1, 0, 0⟩)], 1⟩ : GlobalState).total_games =
      tableTotal (⟨[(STARTPOS, ⟨1, 0, 0⟩)], 1⟩ : GlobalState).occurance_map :=
  (claim_C10_counter_invariant ⟨[], "", "", 0, false, false, false, false⟩
    [⟨Result.WIN, STARTPOS, true⟩] ⟨[(STARTPOS, ⟨1, 0, 0⟩)], 1⟩ (by decide)).1

theorem header_valid_false (s : GameState) (k v : String) (h : s.valid_game = false) :
    (header s k v).valid_game = false := by
  unfold header
  split_ifs <;> simp [h]

theorem foldl_header_valid_false (hs : List (String × String)) :
    ∀ s : GameState, s.valid_game = false →
      (hs.foldl (fun s kv => header s kv.1 kv.2) s).valid_game = false := by
  induction hs with
  | nil => intro s h; exact h
  | cons kv rest ih =>
    intro s h
    rw [List.foldl_cons]
    exact ih _ (header_valid_false s kv.1 kv.2 h)

theorem foldl_header_termination_invalid (hs : List (String × String)) :
    ∀ s : GameState, (∃ v, ("Termination", v) ∈ hs ∧ badTermination v) →
      (hs.foldl (fun s kv => header s kv.1 kv.2) s).valid_game = false := by
  induction hs with
  | nil =>
    intro s h
    obtain ⟨v, hv, _⟩ := h
    cases hv
  | cons kv rest ih =>
    intro s h
    obtain ⟨v, hv, hbad⟩ := h
    rw [List.foldl_cons]
    rcases List.mem_cons.mp hv with hhead | htail
    · have hkv : kv = ("Termination", v) := hhead.symm
      subst hkv
      apply foldl_header_valid_false
      obtain hb | hb | hb | hb | hb := hbad <;> subst hb <;> rfl
    · exact ih _ ⟨v, htail, hbad⟩

theorem header_result_unchanged (s : GameState) (k v : String)
    (h : k = "Result" → ¬ informativeResult v) : (header s k v).result = s.result := by
  unfold header
  split_ifs with h1 h2 h3 h4 <;> try rfl
  · exact absurd (Or.inl h2) (h h1)
  · exact absurd (Or.inr (Or.inl h3)) (h h1)
  · exact absurd (Or.inr (Or.inr h4)) (h h1)

theorem foldl_header_result_unknown (hs : List (String × String)) :
    ∀ s : GameState, s.result = Result.UNKNOWN →
      (∀ v, ("Result", v) ∈ hs → ¬ informativeResult v) →
      (hs.foldl (fun s kv => header s kv.1 kv.2) s).result = Result.UNKNOWN := by
  induction hs with
  | nil => intro s h _; exact h
  | cons kv rest ih =>
    intro s h hall
    rw [List.foldl_cons]
    apply ih
    · rw [header_result_unchanged s kv.1 kv.2]
      · exact h
      · intro hk
        exact hall kv.2 (by rw [← hk]; exact List.mem_cons_self _ _)
    · exact fun v hv => hall v (List.mem_cons_of_mem _ hv)

/-- C4: a game whose headers leave the outcome unknown (no informative
`Result` value) contributes nothing; a game with any disqualifying
`Termination` header contributes nothing even when `Result` was
informative; otherwise, whenever the FEN correction step succeeds (it
always does when no correction table is configured), the
headers-complete transition performs exactly one table upsert and one
`total_games` increment. -/
theorem claim_C4_invalid_games_skipped (opts : CLIOptions) (hs : List (String × String))
    (st : GlobalState) :
    ((∀ v, ("Result", v) ∈ hs → ¬ informativeResult v) →
      startMoves opts (processHeaders hs) st = some st) ∧
    ((∃ v, ("Termination", v) ∈ hs ∧ badTermination v) →
      startMoves opts (processHeaders hs) st = some st) ∧
    (∀ (g : GameState) (f : String), g.result ≠ Result.UNKNOWN → g.valid_game = true →
      fixFen opts.fixfens g.fen = some f →
      startMoves opts g st =
        some ⟨upsertTable st.occurance_map f g.result, st.total_games + 1⟩) := by
  refine ⟨?_, ?_, ?_⟩
  · intro hall
    have hres : (processHeaders hs).result = Result.UNKNOWN :=
      foldl_header_result_unknown hs startPgn rfl hall
    unfold startMoves
    rw [if_pos (Or.inl hres)]
  · intro hterm
    have hval : (processHeaders hs).valid_game = false :=
      foldl_header_termination_invalid hs startPgn hterm
    unfold startMoves
    rw [if_pos (Or.inr hval)]
  · intro g f hres hval hfix
    unfold startMoves
    rw [if_neg (by simp [hres, hval]), hfix]

theorem claim_C4_witness :
    startMoves ⟨[], "", "", 0, false, false, false, false⟩
        (processHeaders [("Result", "1-0"), ("Termination", "abandoned")]) ⟨[], 0⟩ =
      some ⟨[], 0⟩ ∧
    startMoves ⟨[], "", "", 0, false, false, false, false⟩ ⟨Result.WIN, "x", true⟩ ⟨[], 0⟩ =
      some ⟨[("x", ⟨1, 0, 0⟩)], 0 + 1⟩ := by
  constructor
  · exact (claim_C4_invalid_games_skipped ⟨[], "", "", 0, false, false, false, false⟩
      [("Result", "1-0"), ("Termination", "abandoned")] ⟨[], 0⟩).2.1
      ⟨"abandoned", by decide, Or.inr (Or.inl rfl)⟩
  · have h := (claim_C4_invalid_games_skipped ⟨[], "", "", 0, false, false, false, false⟩
      [] ⟨[], 0⟩).2.2 ⟨Result.WIN, "x", true⟩ "x" (by decide) rfl (by decide)
    exact h

/-- C4 counterexample: a game with an informative `Result` and no
disqualifying `Termination` still performs NO upsert and NO counter
increment when a correction table is configured and its FEN matches the
sentinel but has no table entry - the run aborts instead, refuting the
unconditional "otherwise exactly one upsert and one counter increment
occur". -/
theorem claim_C4_counterexample :
    startMoves ⟨[("x", (1, 2))], "", "", 0, false, false, false, false⟩
      ⟨Result.WIN, "y 0 1", true⟩ ⟨[], 0⟩ = none := by
  decide

theorem fixFen_empty_table (s : String) : fixFen [] s = some s := by
  simp [fixFen]

theorem fixFen_no_sentinel (fixfens : List (String × Int × Int)) (s : String)
    (h : " 0 1".data.isSuffixOf s.data = false) : fixFen fixfens s = some s := by
  unfold fixFen
  rw [if_neg]
  intro hc
  rw [sentinelMatch, h] at hc
  simp at hc

theorem fixFen_hit (fixfens : List (String × Int × Int)) (s : String) (h f : Int)
    (hne : fixfens ≠ []) (hm : sentinelMatch s = true)
    (hl : alookup fixfens (stripSentinel s) = some (h, f)) :
    fixFen fixfens s = some (stripSentinel s ++ " " ++ toString h ++ " " ++ toString f) := by
  unfold fixFen
  rw [if_pos ⟨hne, hm⟩, hl]

/-- C5 (amended): a position string not ending in the sentinel suffix
`" 0 1"` is returned unchanged; one that matches the sentinel pattern
(which also requires a nonempty prefix) and whose stripped prefix has a
table entry `(h, f)` yields the prefix with the table's values
reattached — these coincide with the sentinel exactly when the entry is
`(0, 1)`; with no correction table configured every string is returned
unchanged. -/
theorem claim_C5_fixfen_correction (fixfens : List (String × Int × Int)) (s : String) :
    (" 0 1".data.isSuffixOf s.data = false → fixFen fixfens s = some s) ∧
    (∀ h f, fixfens ≠ [] → sentinelMatch s = true →
      alookup fixfens (stripSentinel s) = some (h, f) →
      fixFen fixfens s = some (stripSentinel s ++ " " ++ toString h ++ " " ++ toString f)) ∧
    fixFen [] s = some s :=
  ⟨fixFen_no_sentinel fixfens s,
   fun h f => fixFen_hit fixfens s h f,
   fixFen_empty_table s⟩

/-- C5 counterexample: with the correction entry `("r", (0, 1))` — which
the correction-source reader accepts, since only `fullmove = 0` lines are
skipped — the corrected result carries exactly the sentinel values again,
refuting the claim's "never the sentinel values". -/
theorem claim_C5_counterexample :
    fixFen [("r", (0, 1))] "r 0 1" = some "r 0 1" ∧
    " 0 1".data.isSuffixOf ("r 0 1").data = true := by
  decide

theorem claim_C5_witness :
    fixFen [("a", (3, 7))] "a 0 1" = some "a 3 7" ∧ fixFen [] "a 0 1" = some "a 0 1" := by
  constructor
  · have h := (claim_C5_fixfen_correction [("a", (3, 7))] "a 0 1").2.1 3 7
      (by decide) (by decide) (by decide)
    exact h
  · exact (claim_C5_fixfen_correction [] "a 0 1").2.2

/-- C6: under the book filter a file is kept iff its metadata exists, has
a book identifier, and that identifier matches the pattern in
non-inverted mode (or fails to match in inverted mode); files with
missing metadata or no book field are dropped under both polarities. -/
theorem claim_C6_book_filter (file_list : List String)
    (meta_map : String → Option TestMetaData) (regex_book : String → Bool)
    (invert : Bool) (f : String) :
    f ∈ filter_files_book file_list meta_map regex_book invert ↔
      f ∈ file_list ∧ ∃ md, meta_map (test_stem f) = some md ∧
        ∃ b, md.book = some b ∧ regex_book b = !invert := by
  rw [filter_files_book, List.mem_filter]
  refine and_congr_right fun _ => ?_
  cases hmm : meta_map (test_stem f) with
  | none => simp [book_remove_pred, hmm]
  | some md =>
    cases hb : md.book with
    | none => simp [book_remove_pred, hmm, hb]
    | some b =>
      cases invert <;> cases hrb : regex_book b <;>
        simp [book_remove_pred, hmm, hb, hrb]

theorem split_chunks_go_nil (sz fuel : Nat) : split_chunks_go sz fuel [] = [] := by
  cases fuel <;> rfl

theorem split_chunks_go_join (sz : Nat) (hsz : 1 ≤ sz) :
    ∀ (fuel : Nat) (l : List String), l.length ≤ fuel →
      (split_chunks_go sz fuel l).join = l := by
  intro fuel
  induction fuel with
  | zero =>
    intro l hl
    have h0 : l = [] := List.length_eq_zero.mp (Nat.le_zero.mp hl)
    subst h0
    rfl
  | succ n ih =>
    intro l hl
    cases l with
    | nil => rfl
    | cons x xs =>
      show (List.take sz (x :: xs) ++ (split_chunks_go sz n (List.drop sz (x :: xs))).join) = _
      rw [ih (List.drop sz (x :: xs))
        (by simp only [List.length_drop, List.length_cons] at hl ⊢; omega)]
      exact List.take_append_drop sz (x :: xs)

theorem split_chunks_go_le (sz : Nat) :
    ∀ (fuel : Nat) (l : List String) (c : List String),
      c ∈ split_chunks_go sz fuel l → c.length ≤ sz := by
  intro fuel
  induction fuel with
  | zero =>
    intro l c hc
    cases l <;> simp [split_chunks_go] at hc
  | succ n ih =>
    intro l c hc
    cases l with
    | nil => simp [split_chunks_go] at hc
    | cons x xs =>
      rcases List.mem_cons.mp hc with h | h
      · subst h
        rw [List.length_take]
        exact min_le_left _ _
      · exact ih _ c h

theorem split_chunks_go_dropLast (sz : Nat) (hsz : 1 ≤ sz) :
    ∀ (fuel : Nat) (l : List String), l.length ≤ fuel →
      ∀ c ∈ (split_chunks_go sz fuel l).dropLast, c.length = sz := by
  intro fuel
  induction fuel with
  | zero =>
    intro l hl c hc
    have h0 : l = [] := List.length_eq_zero.mp (Nat.le_zero.mp hl)
    subst h0
    simp [split_chunks_go] at hc
  | succ n ih =>
    intro l hl c hc
    cases l with
    | nil => simp [split_chunks_go] at hc
    | cons x xs =>
      have hgo : split_chunks_go sz (n + 1) (x :: xs) =
          List.take sz (x :: xs) :: split_chunks_go sz n (List.drop sz (x :: xs)) := rfl
      rw [hgo] at hc
      cases hrest : split_chunks_go sz n (List.drop sz (x :: xs)) with
      | nil =>
        rw [hrest] at hc
        simp at hc
      | cons r rs =>
        rw [hrest] at hc
        rw [List.dropLast_cons_of_ne_nil (by simp)] at hc
        rcases List.mem_cons.mp hc with h | h
        · subst h
          have hdrop : List.drop sz (x :: xs) ≠ [] := by
            intro hd
            rw [hd, split_chunks_go_nil] at hrest
            cases hrest
          have hlen : sz < (x :: xs).length := by
            by_contra hcon
            exact hdrop (List.drop_eq_nil_of_le (by omega))
          rw [List.length_take]
          omega
        · have := ih (List.drop sz (x :: xs))
            (by simp only [List.length_drop, List.length_cons] at hl ⊢; omega)
          rw [hrest] at this
          exact this c h

/-- C9: for every file list and positive target chunk count, the chunks
concatenate back to the input in order, every chunk is bounded by the
`(n + t - 1) / t` chunk size (which is exactly `ceil(n / t)`, as the last
conjunct characterizes), all chunks except possibly the last have exactly
that size, and the empty list yields zero chunks. -/
theorem claim_C9_chunker (pgns : List String) (target_chunks : Nat)
    (ht : 0 < target_chunks) :
    (split_chunks pgns target_chunks).join = pgns ∧
    (∀ c ∈ split_chunks pgns target_chunks,
      c.length ≤ (pgns.length + target_chunks - 1) / target_chunks) ∧
    (∀ c ∈ (split_chunks pgns target_chunks).dropLast,
      c.length = (pgns.length + target_chunks - 1) / target_chunks) ∧
    split_chunks [] target_chunks = [] ∧
    (∀ m, (pgns.length + target_chunks - 1) / target_chunks ≤ m ↔
      pgns.length ≤ target_chunks * m) := by
  refine ⟨?_, ?_, ?_, ?_, ?_⟩
  · cases pgns with
    | nil => rfl
    | cons x xs =>
      have hsz : 1 ≤ ((x :: xs).length + target_chunks - 1) / target_chunks :=
        (Nat.one_le_div_iff ht).mpr (by simp)
      exact split_chunks_go_join _ hsz _ _ le_rfl
  · intro c hc
    exact split_chunks_go_le _ _ _ c hc
  · cases pgns with
    | nil => intro c hc; simp [split_chunks, split_chunks_go] at hc
    | cons x xs =>
      have hsz : 1 ≤ ((x :: xs).length + target_chunks - 1) / target_chunks :=
        (Nat.one_le_div_iff ht).mpr (by simp)
      exact split_chunks_go_dropLast _ hsz _ _ le_rfl
  · rfl
  · intro m
    rw [Nat.div_le_iff_le_mul_add_pred ht]
    omega

theorem claim_C9_witness :
    (split_chunks ["a", "b", "c"] 2).join = ["a", "b", "c"] ∧
    split_chunks ([] : List String) 2 = [] :=
  ⟨(claim_C9_chunker ["a", "b", "c"] 2 (by decide)).1,
   (claim_C9_chunker ["a", "b", "c"] 2 (by decide)).2.2.2.1⟩

theorem lt_iff_ltKey (a b : Statistics) : Statistics.lt a b = true ↔ LtKey a b := by
  unfold Statistics.lt LtKey
  split_ifs <;> simp_all

theorem ltKey_irrefl (a : Statistics) : ¬ LtKey a a := by
  intro h
  rcases h with h | ⟨_, h⟩
  · exact lt_irrefl _ h
  · omega

theorem ltKey_trans (a b c : Statistics) (h1 : LtKey a b) (h2 : LtKey b c) : LtKey a c := by
  rcases h1 with h1 | ⟨e1, h1⟩ <;> rcases h2 with h2 | ⟨e2, h2⟩
  · exact Or.inl (lt_trans h1 h2)
  · exact Or.inl (e2 ▸ h1)
  · exact Or.inl (by rw [e1]; exact h2)
  · exact Or.inr ⟨e1.trans e2, by omega⟩

theorem ltKey_asymm (a b : Statistics) (h1 : LtKey a b) (h2 : LtKey b a) : False := by
  rcases h1 with h1 | ⟨e1, h1⟩ <;> rcases h2 with h2 | ⟨e2, h2⟩
  · exact lt_asymm h1 h2
  · exact absurd e2.symm (ne_of_lt h1)
  · exact absurd e1 (ne_of_gt h2)
  · omega

theorem stats_fields_ne (a b : Statistics) (h : a ≠ b) :
    ¬(a.wins = b.wins ∧ a.draws = b.draws ∧ a.losses = b.losses) := by
  rintro ⟨h1, h2, h3⟩
  apply h
  cases a
  cases b
  simp_all

theorem ltKey_connex (a b : Statistics) (h : a ≠ b) : LtKey a b ∨ LtKey b a := by
  have hne := stats_fields_ne a b h
  have ht1 : a.total = a.wins + a.draws + a.losses := rfl
  have ht2 : b.total = b.wins + b.draws + b.losses := rfl
  rcases lt_trichotomy a.draw_rate b.draw_rate with hd | hd | hd
  · exact Or.inl (Or.inl hd)
  · rcases Nat.lt_trichotomy a.total b.total with htot | htot | htot
    · exact Or.inr (Or.inr ⟨hd.symm, Or.inl htot⟩)
    · rcases Nat.lt_trichotomy a.wins b.wins with hw | hw | hw
      · exact Or.inr (Or.inr ⟨hd.symm, Or.inr ⟨htot.symm, Or.inl hw⟩⟩)
      · rcases Nat.lt_trichotomy a.draws b.draws with hdr | hdr | hdr
        · exact Or.inr (Or.inr ⟨hd.symm, Or.inr ⟨htot.symm, Or.inr ⟨hw.symm, Or.inl hdr⟩⟩⟩)
        · exact absurd ⟨hw, hdr, by omega⟩ hne
        · exact Or.inl (Or.inr ⟨hd, Or.inr ⟨htot, Or.inr ⟨hw, Or.inl hdr⟩⟩⟩)
      · exact Or.inl (Or.inr ⟨hd, Or.inr ⟨htot, Or.inl hw⟩⟩)
    · exact Or.inl (Or.inr ⟨hd, Or.inl htot⟩)
  · exact Or.inr (Or.inl hd)

theorem statistics_lt_irrefl (s : Statistics) : Statistics.lt s s = false := by
  rw [Bool.eq_false_iff]
  intro hc
  exact ltKey_irrefl s ((lt_iff_ltKey s s).mp hc)

theorem statistics_lt_asymm (a b : Statistics) (h : Statistics.lt a b = true) :
    Statistics.lt b a = false := by
  rw [Bool.eq_false_iff]
  intro hc
  exact ltKey_asymm a b ((lt_iff_ltKey a b).mp h) ((lt_iff_ltKey b a).mp hc)

theorem statistics_lt_trans (a b c : Statistics) (h1 : Statistics.lt a b = true)
    (h2 : Statistics.lt b c = true) : Statistics.lt a c = true :=
  (lt_iff_ltKey a c).mpr (ltKey_trans a b c ((lt_iff_ltKey a b).mp h1) ((lt_iff_ltKey b c).mp h2))

theorem statistics_lt_connex (a b : Statistics) (h : a ≠ b) :
    Statistics.lt a b = true ∨ Statistics.lt b a = true := by
  rcases ltKey_connex a b h with hk | hk
  · exact Or.inl ((lt_iff_ltKey a b).mpr hk)
  · exact Or.inr ((lt_iff_ltKey b a).mpr hk)

theorem insertEntry_perm (e : String × Statistics) (l : List (String × Statistics)) :
    (insertEntry e l).Perm (e :: l) := by
  induction l with
  | nil => exact List.Perm.refl _
  | cons f rest ih =>
    unfold insertEntry
    by_cases h : Statistics.lt e.2 f.2
    · rw [if_pos h]
    · rw [if_neg h]
      exact (List.Perm.cons f ih).trans (List.Perm.swap e f rest)

theorem sortEntries_perm (l : List (String × Statistics)) : (sortEntries l).Perm l := by
  induction l with
  | nil => exact List.Perm.refl _
  | cons e rest ih =>
    exact (insertEntry_perm e (sortEntries rest)).trans (List.Perm.cons e ih)

theorem entry_le_of_not_lt {e f : String × Statistics} (h : ¬ Statistics.lt e.2 f.2 = true) :
    entry_le f e := by
  unfold entry_le
  exact Bool.eq_false_iff.mpr h

theorem insertEntry_pairwise (e : String × Statistics) (l : List (String × Statistics))
    (hl : List.Pairwise entry_le l) : List.Pairwise entry_le (insertEntry e l) := by
  induction l with
  | nil => exact List.pairwise_singleton _ _
  | cons f rest ih =>
    unfold insertEntry
    by_cases h : Statistics.lt e.2 f.2
    · rw [if_pos h]
      refine List.Pairwise.cons ?_ hl
      intro x hx
      rcases List.mem_cons.mp hx with hx | hx
      · subst hx
        exact statistics_lt_asymm _ _ h
      · have hfx : entry_le f x := (List.pairwise_cons.mp hl).1 x hx
        unfold entry_le at hfx ⊢
        rw [Bool.eq_false_iff] at hfx ⊢
        intro hc
        exact hfx (statistics_lt_trans _ _ _ hc h)
    · rw [if_neg h]
      have hfe : entry_le f e := entry_le_of_not_lt h
      obtain ⟨hhead, htail⟩ := List.pairwise_cons.mp hl
      refine List.Pairwise.cons ?_ (ih htail)
      intro x hx
      have : x ∈ e :: rest := (insertEntry_perm e rest).mem_iff.mp hx
      rcases List.mem_cons.mp this with hx' | hx'
      · subst hx'
        exact hfe
      · exact hhead x hx'

theorem sortEntries_pairwise (l : List (String × Statistics)) :
    List.Pairwise entry_le (sortEntries l) := by
  induction l with
  | nil => exact List.Pairwise.nil
  | cons e rest ih => exact insertEntry_pairwise e (sortEntries rest) ih

theorem entry_le_draw_rate {a b : String × Statistics} (h : entry_le a b) :
    a.2.draw_rate ≤ b.2.draw_rate := by
  unfold entry_le at h
  by_contra hc
  push_neg at hc
  have : LtKey b.2 a.2 := Or.inl hc
  rw [Bool.eq_false_iff] at h
  exact h ((lt_iff_ltKey b.2 a.2).mpr this)

/-- C1 (amended): the report rows are the table entries sorted by the
code's comparator, which is a strict total order; the primary key is the
draw rate in ASCENDING order (lower draw rate first, not higher), and
ties are broken by higher total, then higher wins, draws, losses. -/
theorem claim_C1_report_order (table : Table) :
    (write_results_rows table).Perm table ∧
    List.Pairwise entry_le (write_results_rows table) ∧
    List.Pairwise (fun a b => a.2.draw_rate ≤ b.2.draw_rate) (write_results_rows table) ∧
    (∀ s, Statistics.lt s s = false) ∧
    (∀ a b, Statistics.lt a b = true → Statistics.lt b a = false) ∧
    (∀ a b c, Statistics.lt a b = true → Statistics.lt b c = true →
      Statistics.lt a c = true) ∧
    (∀ a b, a ≠ b → Statistics.lt a b = true ∨ Statistics.lt b a = true) := by
  refine ⟨sortEntries_perm table, sortEntries_pairwise table,
    (sortEntries_pairwise table).imp fun h => entry_le_draw_rate h,
    statistics_lt_irrefl, statistics_lt_asymm, statistics_lt_trans, statistics_lt_connex⟩

theorem claim_C1_witness :
    Statistics.lt ⟨0, 1, 0⟩ ⟨1, 0, 0⟩ = false ∧
    (Statistics.lt ⟨1, 0, 0⟩ ⟨0, 1, 0⟩ = true ∨ Statistics.lt ⟨0, 1, 0⟩ ⟨1, 0, 0⟩ = true) := by
  have hlt : Statistics.lt ⟨1, 0, 0⟩ ⟨0, 1, 0⟩ = true := by
    norm_num [Statistics.lt, Statistics.draw_rate, Statistics.total]
  exact ⟨(claim_C1_report_order []).2.2.2.2.1 ⟨1, 0, 0⟩ ⟨0, 1, 0⟩ hlt,
    (claim_C1_report_order []).2.2.2.2.2.2 ⟨1, 0, 0⟩ ⟨0, 1, 0⟩ (by decide)⟩

/-- C1 counterexample: two entries with draw rates 1 and 0; the sort puts
the LOWER draw rate first, refuting "higher draw rate first". -/
theorem claim_C1_counterexample :
    write_results_rows [("a", ⟨0, 1, 0⟩), ("b", ⟨1, 0, 0⟩)] =
      [("b", ⟨1, 0, 0⟩), ("a", ⟨0, 1, 0⟩)] ∧
    Statistics.draw_rate ⟨1, 0, 0⟩ < Statistics.draw_rate ⟨0, 1, 0⟩ := by
  have h1 : Statistics.lt ⟨0, 1, 0⟩ ⟨1, 0, 0⟩ = false := by
    norm_num [Statistics.lt, Statistics.draw_rate, Statistics.total]
  constructor
  · simp [write_results_rows, sortEntries, insertEntry, h1]
  · norm_num [Statistics.draw_rate, Statistics.total]

theorem alookup_append_of_some {α : Type} {m : List (String × α)} {x : String} {w : α}
    (l : List (String × α)) (h : alookup m x = some w) : alookup (m ++ l) x = some w := by
  induction m with
  | nil => cases h
  | cons e rest ih =>
    obtain ⟨k, v⟩ := e
    by_cases hk : k = x
    · simp only [alookup, hk, if_pos] at h
      simp [alookup, hk, h]
    · simp only [alookup, hk, ite_false, if_neg] at h
      simp [alookup, hk, ih h]

theorem alookup_append_single_none {α : Type} {m : List (String × α)} {x : String}
    (k : String) (v : α) (h : alookup m x = none) :
    alookup (m ++ [(k, v)]) x = if k = x then some v else none := by
  induction m with
  | nil => simp [alookup]
  | cons e rest ih =>
    obtain ⟨k', v'⟩ := e
    by_cases hk : k' = x
    · simp [alookup, hk] at h
    · simp only [alookup, hk, ite_false, if_neg] at h
      simp [alookup, hk, ih h]

theorem alookup_stepExtend (m : List (String × String)) (p x : String) :
    alookup (stepExtend m p) x =
      if test_id_of p = x ∧ alookup m x = none then some (test_stem p)
      else alookup m x := by
  unfold stepExtend
  cases hm : alookup m (test_id_of p) with
  | some v =>
    by_cases hx : test_id_of p = x
    · subst hx
      simp [hm]
    · simp [hx]
  | none =>
    by_cases hx : test_id_of p = x
    · subst hx
      rw [alookup_append_single_none _ _ hm]
      simp [hm]
    · cases hmx : alookup m x with
      | some w => rw [alookup_append_of_some _ hmx]; simp [hx, hmx]
      | none => rw [alookup_append_single_none _ _ hmx]; simp [hx, hmx]

theorem extendMap_cons (m : List (String × String)) (p : String) (rest : List String) :
    extendMap m (p :: rest) = extendMap (stepExtend m p) rest := rfl

theorem alookup_extendMap_of_some (files : List String) :
    ∀ (m : List (String × String)) (x : String) (v : String),
      alookup m x = some v → alookup (extendMap m files) x = some v := by
  induction files with
  | nil => intro m x v h; exact h
  | cons p rest ih =>
    intro m x v h
    rw [extendMap_cons]
    apply ih
    rw [alookup_stepExtend]
    simp [h]

theorem alookup_stepExtend_self (m : List (String × String)) (p : String) :
    ∃ v, alookup (stepExtend m p) (test_id_of p) = some v := by
  rw [alookup_stepExtend]
  cases hm : alookup m (test_id_of p) with
  | none => exact ⟨test_stem p, by simp [hm]⟩
  | some v => exact ⟨v, by simp [hm]⟩

theorem alookup_extendMap_isSome (files : List String) :
    ∀ (m : List (String × String)) (p : String), p ∈ files →
      ∃ v, alookup (extendMap m files) (test_id_of p) = some v := by
  induction files with
  | nil => intro m p hp; cases hp
  | cons q rest ih =>
    intro m p hp
    rw [extendMap_cons]
    rcases List.mem_cons.mp hp with hp | hp
    · subst hp
      obtain ⟨v, hv⟩ := alookup_stepExtend_self m p
      exact ⟨v, alookup_extendMap_of_some rest _ _ _ hv⟩
    · exact ih _ p hp

theorem extendMap_binding_origin (files : List String) :
    ∀ (m : List (String × String)) (x v : String),
      alookup m x = none → alookup (extendMap m files) x = some v →
      ∃ q ∈ files, test_id_of q = x ∧ test_stem q = v := by
  induction files with
  | nil =>
    intro m x v h1 h2
    rw [show extendMap m [] = m from rfl, h1] at h2
    cases h2
  | cons p rest ih =>
    intro m x v h1 h2
    rw [extendMap_cons] at h2
    by_cases hx : test_id_of p = x
    · have hstep : alookup (stepExtend m p) x = some (test_stem p) := by
        rw [alookup_stepExtend]
        simp [hx, h1]
      have hfin := alookup_extendMap_of_some rest _ _ _ hstep
      rw [h2] at hfin
      injection hfin with hfin
      exact ⟨p, List.mem_cons_self _ _, hx, hfin.symm⟩
    · have hstep : alookup (stepExtend m p) x = none := by
        rw [alookup_stepExtend]
        simp [hx, h1]
      obtain ⟨q, hq, hq1, hq2⟩ := ih _ x v hstep h2
      exact ⟨q, List.mem_cons_of_mem _ hq, hq1, hq2⟩

theorem mem_mem_sublist {l : List String} {p q : String} (hp : p ∈ l) (hq : q ∈ l)
    (hne : p ≠ q) : List.Sublist [p, q] l ∨ List.Sublist [q, p] l := by
  induction l with
  | nil => cases hp
  | cons a rest ih =>
    rcases List.mem_cons.mp hp with hpa | hpr
    · subst hpa
      have hqr : q ∈ rest := by
        rcases List.mem_cons.mp hq with h | h
        · exact absurd h.symm hne
        · exact h
      exact Or.inl (List.Sublist.cons₂ p (List.singleton_sublist.mpr hqr))
    · rcases List.mem_cons.mp hq with hqa | hqr
      · subst hqa
        exact Or.inr (List.Sublist.cons₂ q (List.singleton_sublist.mpr hpr))
      · rcases ih hpr hqr with h | h
        · exact Or.inl (List.Sublist.cons a h)
        · exact Or.inr (List.Sublist.cons a h)

theorem conflictIn_iff (files : List String) :
    ∀ (m : List (String × String)) (s : String),
      ConflictIn m files s ↔
        ∃ p ∈ files, test_stem p = s ∧
          alookup (extendMap m files) (test_id_of p) ≠ some (test_stem p) := by
  induction files with
  | nil =>
    intro m s
    simp [ConflictIn]
  | cons p rest ih =>
    intro m s
    rw [show ConflictIn m (p :: rest) s =
      ((stepConflict m p ∧ test_stem p = s) ∨ ConflictIn (stepExtend m p) rest s) from rfl]
    rw [extendMap_cons]
    constructor
    · rintro (⟨⟨v, hv, hvne⟩, hs⟩ | htail)
      · refine ⟨p, List.mem_cons_self _ _, hs, ?_⟩
        have hstep : alookup (stepExtend m p) (test_id_of p) = some v := by
          rw [alookup_stepExtend]
          simp [hv]
        rw [alookup_extendMap_of_some rest _ _ _ hstep]
        intro hc
        injection hc with hc
        exact hvne hc
      · obtain ⟨q, hq, hqs, hqne⟩ := (ih (stepExtend m p) s).mp htail
        exact ⟨q, List.mem_cons_of_mem _ hq, hqs, hqne⟩
    · rintro ⟨q, hq, hqs, hqne⟩
      rcases List.mem_cons.mp hq with hqp | hqr
      · subst hqp
        cases hm : alookup m (test_id_of q) with
        | none =>
          exfalso
          have hstep : alookup (stepExtend m q) (test_id_of q) = some (test_stem q) := by
            rw [alookup_stepExtend]
            simp [hm]
          exact hqne (alookup_extendMap_of_some rest _ _ _ hstep)
        | some v =>
          left
          refine ⟨⟨v, hm, ?_⟩, hqs⟩
          intro hc
          have hstep : alookup (stepExtend m q) (test_id_of q) = some v := by
            rw [alookup_stepExtend]
            simp [hm]
          rw [hc] at hstep
          exact hqne (alookup_extendMap_of_some rest _ _ _ hstep)
      · right
        exact (ih (stepExtend m p) s).mpr ⟨q, hqr, hqs, hqne⟩

theorem alookup_nil {α : Type} (x : String) : alookup ([] : List (String × α)) x = none := rfl

theorem offendingStem_iff_conflictIn (files : List String) (s : String) :
    OffendingStem files s ↔ ConflictIn [] files s := by
  rw [conflictIn_iff files [] s]
  unfold OffendingStem
  constructor
  · rintro ⟨p, hp, hs, hne⟩
    exact ⟨p, hp, hs, hne⟩
  · rintro ⟨p, hp, hs, hne⟩
    exact ⟨p, hp, hs, hne⟩

theorem offending_iff_pair (files : List String) :
    (∃ s, OffendingStem files s) ↔ conflictPair files := by
  constructor
  · rintro ⟨s, p, hp, hs, hne⟩
    obtain ⟨v, hv⟩ := alookup_extendMap_isSome files [] p hp
    have hvne : v ≠ test_stem p := by
      intro hc
      subst hc
      exact hne hv
    obtain ⟨q, hq, hq1, hq2⟩ := extendMap_binding_origin files [] _ v (alookup_nil _) hv
    have hpq : p ≠ q := by
      intro hc
      subst hc
      exact hvne hq2.symm
    have hstems : test_stem q ≠ test_stem p := hq2 ▸ hvne
    rcases mem_mem_sublist hp hq hpq with hsub | hsub
    · exact ⟨p, q, hsub, hq1.symm, fun hc => hstems hc.symm⟩
    · exact ⟨q, p, hsub, hq1, hstems⟩
  · rintro ⟨p, q, hsub, hid, hstem⟩
    have hp : p ∈ files := hsub.subset (List.mem_cons_self _ _)
    have hq : q ∈ files := hsub.subset (List.mem_cons_of_mem _ (List.mem_singleton_self _))
    obtain ⟨v, hv⟩ := alookup_extendMap_isSome files [] p hp
    by_cases hvp : v = test_stem p
    · subst hvp
      refine ⟨test_stem q, q, hq, rfl, ?_⟩
      rw [← hid, hv]
      intro hc
      injection hc with hc
      exact hstem hc
    · refine ⟨test_stem p, p, hp, rfl, ?_⟩
      rw [hv]
      intro hc
      injection hc with hc
      exact hvp hc

theorem conflictIn_iff_offending_exists (files : List String) :
    (∃ s, ConflictIn [] files s) ↔ conflictPair files := by
  rw [← offending_iff_pair]
  constructor
  · rintro ⟨s, h⟩
    exact ⟨s, (offendingStem_iff_conflictIn files s).mpr h⟩
  · rintro ⟨s, h⟩
    exact ⟨s, (offendingStem_iff_conflictIn files s).mp h⟩

theorem stepExtend_eq_of_none (m : List (String × String)) (p : String)
    (hm : alookup m (test_id_of p) = none) :
    stepExtend m p = m ++ [(test_id_of p, test_stem p)] := by
  unfold stepExtend
  rw [hm]

theorem stepExtend_eq_of_some (m : List (String × String)) (p v : String)
    (hm : alookup m (test_id_of p) = some v) : stepExtend m p = m := by
  unfold stepExtend
  rw [hm]

theorem load_step_preserves (disk : String → Option TestMetaData) (st : MetaState)
    (p : String) :
    (load_step disk st p).test_map = st.test_map ∧
      (load_step disk st p).test_warned = st.test_warned := by
  unfold load_step
  cases alookup st.meta_map (test_stem p) with
  | some _ => exact ⟨rfl, rfl⟩
  | none =>
    cases disk (test_stem p) with
    | none => exact ⟨rfl, rfl⟩
    | some md => exact ⟨rfl, rfl⟩

theorem load_step_loads (disk : String → Option TestMetaData) (st : MetaState) (p : String)
    (h : st.loads.Nodup ∧ ∀ s ∈ st.loads, alookup st.meta_map s ≠ none) :
    (load_step disk st p).loads.Nodup ∧
      ∀ s ∈ (load_step disk st p).loads, alookup (load_step disk st p).meta_map s ≠ none := by
  unfold load_step
  cases h1 : alookup st.meta_map (test_stem p) with
  | some _ => exact h
  | none =>
    cases h2 : disk (test_stem p) with
    | none => exact h
    | some md =>
      have hnotin : test_stem p ∉ st.loads := fun hc => h.2 _ hc h1
      constructor
      · exact h.1.append (List.nodup_singleton _)
          (fun x hx hx' => hnotin ((List.mem_singleton.mp hx') ▸ hx))
      · intro s hs
        rcases List.mem_append.mp hs with hs | hs
        · cases hms : alookup st.meta_map s with
          | none => exact absurd hms (h.2 s hs)
          | some w =>
            rw [alookup_append_of_some _ hms]
            simp
        · have hss : s = test_stem p := List.mem_singleton.mp hs
          subst hss
          rw [alookup_append_single_none _ _ h1]
          simp

theorem dup_step_eq_none_arm (allow : Bool) (st : MetaState) (p : String)
    (hm : alookup st.test_map (test_id_of p) = none) :
    dup_step allow st p =
      some { st with test_map := st.test_map ++ [(test_id_of p, test_stem p)] } := by
  unfold dup_step
  rw [hm]

theorem dup_step_eq_some_arm (allow : Bool) (st : MetaState) (p first : String)
    (hm : alookup st.test_map (test_id_of p) = some first) :
    dup_step allow st p =
      (if first = test_stem p then some st
       else if test_stem p ∈ st.test_warned then some st
       else if allow then some { st with test_warned := st.test_warned ++ [test_stem p] }
       else none) := by
  unfold dup_step
  rw [hm]

theorem dup_step_true_full (st : MetaState) (p : String) :
    ∃ std, dup_step true st p = some std ∧
      std.test_map = stepExtend st.test_map p ∧
      std.meta_map = st.meta_map ∧ std.loads = st.loads ∧
      (∀ s, s ∈ std.test_warned ↔
        s ∈ st.test_warned ∨ (stepConflict st.test_map p ∧ test_stem p = s)) ∧
      (st.test_warned.Nodup → std.test_warned.Nodup) := by
  cases hm : alookup st.test_map (test_id_of p) with
  | none =>
    rw [dup_step_eq_none_arm true st p hm]
    refine ⟨_, rfl, ?_, rfl, rfl, ?_, id⟩
    · rw [stepExtend_eq_of_none st.test_map p hm]
    · intro s
      constructor
      · exact Or.inl
      · rintro (hs | ⟨⟨v, hv, _⟩, _⟩)
        · exact hs
        · rw [hm] at hv
          cases hv
  | some first =>
    rw [dup_step_eq_some_arm true st p first hm]
    by_cases h1 : first = test_stem p
    · rw [if_pos h1]
      refine ⟨st, rfl, (stepExtend_eq_of_some st.test_map p first hm).symm, rfl, rfl, ?_, id⟩
      intro s
      constructor
      · exact Or.inl
      · rintro (hs | ⟨⟨v, hv, hvne⟩, _⟩)
        · exact hs
        · rw [hm] at hv
          injection hv with hv
          exact absurd (by rw [← hv]; exact h1) hvne
    · rw [if_neg h1]
      by_cases h2 : test_stem p ∈ st.test_warned
      · rw [if_pos h2]
        refine ⟨st, rfl, (stepExtend_eq_of_some st.test_map p first hm).symm, rfl, rfl, ?_, id⟩
        intro s
        constructor
        · exact Or.inl
        · rintro (hs | ⟨_, hsp⟩)
          · exact hs
          · exact hsp ▸ h2
      · rw [if_neg h2, if_pos rfl]
        refine ⟨_, rfl, (stepExtend_eq_of_some st.test_map p first hm).symm, rfl, rfl, ?_, ?_⟩
        · intro s
          rw [show ({ st with test_warned := st.test_warned ++ [test_stem p] } :
              MetaState).test_warned = st.test_warned ++ [test_stem p] from rfl]
          rw [List.mem_append, List.mem_singleton]
          constructor
          · rintro (hs | hs)
            · exact Or.inl hs
            · exact Or.inr ⟨⟨first, hm, h1⟩, hs.symm⟩
          · rintro (hs | ⟨_, hsp⟩)
            · exact Or.inl hs
            · exact Or.inr hsp.symm
        · intro hnd
          exact hnd.append (List.nodup_singleton _)
            (fun x hx hx' => h2 ((List.mem_singleton.mp hx') ▸ hx))

theorem dup_step_false_full (st : MetaState) (p : String) (hw : st.test_warned = []) :
    (stepConflict st.test_map p → dup_step false st p = none) ∧
    (¬ stepConflict st.test_map p → ∃ std, dup_step false st p = some std ∧
      std.test_map = stepExtend st.test_map p ∧ std.test_warned = [] ∧
      std.meta_map = st.meta_map ∧ std.loads = st.loads) := by
  constructor
  · rintro ⟨v, hv, hvne⟩
    rw [dup_step_eq_some_arm false st p v hv, if_neg hvne, hw]
    rw [if_neg (List.not_mem_nil _)]
    simp
  · intro hnc
    cases hm : alookup st.test_map (test_id_of p) with
    | none =>
      rw [dup_step_eq_none_arm false st p hm]
      exact ⟨_, rfl, (stepExtend_eq_of_none st.test_map p hm).symm, hw, rfl, rfl⟩
    | some first =>
      have h1 : first = test_stem p := by
        by_contra hc
        exact hnc ⟨first, hm, hc⟩
      rw [dup_step_eq_some_arm false st p first hm, if_pos h1]
      exact ⟨st, rfl, (stepExtend_eq_of_some st.test_map p first hm).symm, hw, rfl, rfl⟩

theorem step_true_full (disk : String → Option TestMetaData) (st : MetaState) (p : String) :
    ∃ st1, get_metadata_step disk true st p = some st1 ∧
      st1.test_map = stepExtend st.test_map p ∧
      (∀ s, s ∈ st1.test_warned ↔
        s ∈ st.test_warned ∨ (stepConflict st.test_map p ∧ test_stem p = s)) ∧
      (st.test_warned.Nodup → st1.test_warned.Nodup) ∧
      ((st.loads.Nodup ∧ ∀ s ∈ st.loads, alookup st.meta_map s ≠ none) →
        (st1.loads.Nodup ∧ ∀ s ∈ st1.loads, alookup st1.meta_map s ≠ none)) := by
  obtain ⟨std, hstd, hmap, hmeta, hloads, hwiff, hwnd⟩ := dup_step_true_full st p
  refine ⟨load_step disk std p, ?_, ?_, ?_, ?_, ?_⟩
  · unfold get_metadata_step
    rw [hstd]
  · rw [(load_step_preserves disk std p).1, hmap]
  · intro s
    rw [(load_step_preserves disk std p).2]
    exact hwiff s
  · intro hnd
    rw [(load_step_preserves disk std p).2]
    exact hwnd hnd
  · intro hinv
    apply load_step_loads
    rw [hmeta, hloads]
    exact hinv

theorem get_metadata_go_cons (disk : String → Option TestMetaData) (allow : Bool)
    (st : MetaState) (p : String) (rest : List String) :
    get_metadata_go disk allow st (p :: rest) =
      match get_metadata_step disk allow st p with
      | none => none
      | some st' => get_metadata_go disk allow st' rest := rfl

theorem go_true (disk : String → Option TestMetaData) :
    ∀ (rest : List String) (st : MetaState),
      ∃ st', get_metadata_go disk true st rest = some st' ∧
        (∀ s, s ∈ st'.test_warned ↔ s ∈ st.test_warned ∨ ConflictIn st.test_map rest s) ∧
        (st.test_warned.Nodup → st'.test_warned.Nodup) ∧
        ((st.loads.Nodup ∧ ∀ s ∈ st.loads, alookup st.meta_map s ≠ none) →
          (st'.loads.Nodup ∧ ∀ s ∈ st'.loads, alookup st'.meta_map s ≠ none)) := by
  intro rest
  induction rest with
  | nil =>
    intro st
    exact ⟨st, rfl, fun s => by simp [ConflictIn], id, id⟩
  | cons p rest ih =>
    intro st
    obtain ⟨st1, hst1, hmap1, hwiff1, hwnd1, hld1⟩ := step_true_full disk st p
    obtain ⟨st', hst', hwiff', hwnd', hld'⟩ := ih st1
    refine ⟨st', ?_, ?_, fun hnd => hwnd' (hwnd1 hnd), fun hinv => hld' (hld1 hinv)⟩
    · rw [get_metadata_go_cons, hst1]
      exact hst'
    · intro s
      rw [hwiff' s, hwiff1 s]
      rw [show ConflictIn st.test_map (p :: rest) s =
        ((stepConflict st.test_map p ∧ test_stem p = s) ∨
          ConflictIn (stepExtend st.test_map p) rest s) from rfl]
      rw [hmap1]
      tauto

theorem go_false (disk : String → Option TestMetaData) :
    ∀ (rest : List String) (st : MetaState), st.test_warned = [] →
      ((get_metadata_go disk false st rest = none ↔
          ∃ s, ConflictIn st.test_map rest s) ∧
        (∀ st', get_metadata_go disk false st rest = some st' →
          st'.test_warned = [] ∧
          ((st.loads.Nodup ∧ ∀ s ∈ st.loads, alookup st.meta_map s ≠ none) →
            (st'.loads.Nodup ∧ ∀ s ∈ st'.loads, alookup st'.meta_map s ≠ none)))) := by
  intro rest
  induction rest with
  | nil =>
    intro st hw
    refine ⟨by simp [get_metadata_go, ConflictIn], ?_⟩
    intro st' h
    injection h with h
    subst h
    exact ⟨hw, id⟩
  | cons p rest ih =>
    intro st hw
    by_cases hc : stepConflict st.test_map p
    · have hnone : get_metadata_step disk false st p = none := by
        unfold get_metadata_step
        rw [(dup_step_false_full st p hw).1 hc]
      constructor
      · rw [get_metadata_go_cons, hnone]
        simp only [true_iff]
        exact ⟨test_stem p, Or.inl ⟨hc, rfl⟩⟩
      · intro st' h
        rw [get_metadata_go_cons, hnone] at h
        cases h
    · obtain ⟨std, hstd, hmap, hwn, hmeta, hloads⟩ := (dup_step_false_full st p hw).2 hc
      have hstep : get_metadata_step disk false st p = some (load_step disk std p) := by
        unfold get_metadata_step
        rw [hstd]
      have h1w : (load_step disk std p).test_warned = [] := by
        rw [(load_step_preserves disk std p).2, hwn]
      have h1map : (load_step disk std p).test_map = stepExtend st.test_map p := by
        rw [(load_step_preserves disk std p).1, hmap]
      obtain ⟨hiff, hsome⟩ := ih (load_step disk std p) h1w
      constructor
      · rw [get_metadata_go_cons, hstep, hiff, h1map]
        constructor
        · rintro ⟨s, hs⟩
          exact ⟨s, Or.inr hs⟩
        · rintro ⟨s, ⟨hcc, _⟩ | hs⟩
          · exact absurd hcc hc
          · exact ⟨s, hs⟩
      · intro st' h
        rw [get_metadata_go_cons, hstep] at h
        refine ⟨(hsome st' h).1, fun hinv => (hsome st' h).2 ?_⟩
        apply load_step_loads
        rw [hmeta, hloads]
        exact hinv

/-- C7: scanning a file list, the run aborts with no metadata result iff
duplicates are disallowed and two files share a derived test identifier
while having different canonical stems; on a successful scan the
duplicate warning list has no repeats and, when duplicates are allowed,
contains exactly the offending stems; sidecar metadata is successfully
loaded at most once per distinct stem. -/
theorem claim_C7_duplicate_detection (disk : String → Option TestMetaData)
    (files : List String) (allow : Bool) :
    (get_metadata disk files allow = none ↔ (allow = false ∧ conflictPair files)) ∧
    (∀ st, get_metadata disk files allow = some st →
      st.test_warned.Nodup ∧ st.loads.Nodup ∧
      (allow = true → ∀ s, (s ∈ st.test_warned ↔ OffendingStem files s))) := by
  cases allow
  · obtain ⟨hiff, hsome⟩ := go_false disk files ⟨[], [], [], []⟩ rfl
    constructor
    · rw [show get_metadata disk files false =
        get_metadata_go disk false ⟨[], [], [], []⟩ files from rfl, hiff]
      rw [show (⟨[], [], [], []⟩ : MetaState).test_map = [] from rfl]
      rw [conflictIn_iff_offending_exists files]
      simp
    · intro st h
      obtain ⟨hwn, hld⟩ := hsome st h
      refine ⟨by rw [hwn]; exact List.nodup_nil, ?_, ?_⟩
      · exact (hld ⟨List.nodup_nil, fun s hs => absurd hs (List.not_mem_nil s)⟩).1
      · intro hc
        cases hc
  · obtain ⟨st', hgo, hwiff, hwnd, hld⟩ := go_true disk files ⟨[], [], [], []⟩
    constructor
    · rw [show get_metadata disk files true =
        get_metadata_go disk true ⟨[], [], [], []⟩ files from rfl, hgo]
      simp
    · intro st h
      rw [show get_metadata disk files true =
        get_metadata_go disk true ⟨[], [], [], []⟩ files from rfl, hgo] at h
      injection h with h
      subst h
      refine ⟨hwnd List.nodup_nil, ?_, ?_⟩
      · exact (hld ⟨List.nodup_nil, fun s hs => absurd hs (List.not_mem_nil s)⟩).1
      · intro _ s
        rw [hwiff s, offendingStem_iff_conflictIn files s]
        rw [show (⟨[], [], [], []⟩ : MetaState).test_map = [] from rfl]
        simp

theorem claim_C7_witness :
    (false = false ∧ conflictPair ["d1/t-a.pgn", "d2/t-b.pgn"]) ∧
    (⟨[("a", "a")], [], [], []⟩ : MetaState).test_warned.Nodup :=
  ⟨(claim_C7_duplicate_detection (fun _ => none) ["d1/t-a.pgn", "d2/t-b.pgn"] false).1.mp
      (by decide),
   ((claim_C7_duplicate_detection (fun _ => none) ["a-1.pgn"] true).2
      ⟨[("a", "a")], [], [], []⟩ (by decide)).1⟩

theorem claim_C6_witness :
    "d/t-x.pgn" ∈ filter_files_book ["d/t-x.pgn"]
      (fun s => if s = "d/t" then some ⟨some "bk", none, none⟩ else none)
      (fun b => b == "bk") false :=
  (claim_C6_book_filter ["d/t-x.pgn"]
      (fun s => if s = "d/t" then some ⟨some "bk", none, none⟩ else none)
      (fun b => b == "bk") false "d/t-x.pgn").mpr
    ⟨by decide, ⟨some "bk", none, none⟩, by decide, "bk", by decide, by decide⟩

/-- C8: the conclusive-only report retains an entry iff exactly one of
its three counters is nonzero and equals the total (the refinement
between the code's test and the spec's wording), and without
conclusive-only mode every sorted entry is retained. -/
theorem claim_C8_conclusive_filter (table : Table) :
    (∀ s : Statistics, conclusive_keep s = true ↔ spec_conclusive s) ∧
    write_results_conclusive_rows false table = sortEntries table ∧
    (∀ e, e ∈ write_results_conclusive_rows true table ↔
      e ∈ sortEntries table ∧ spec_conclusive e.2) := by
  have hiff : ∀ s : Statistics, conclusive_keep s = true ↔ spec_conclusive s := by
    intro s
    simp only [conclusive_keep, spec_conclusive, Statistics.total, Bool.or_eq_true,
      Bool.and_eq_true, decide_eq_true_eq]
    omega
  refine ⟨hiff, ?_, ?_⟩
  · simp [write_results_conclusive_rows]
  · intro e
    rw [write_results_conclusive_rows, List.mem_filter]
    simp only [if_true, ite_true]
    exact and_congr_right fun _ => hiff e.2

theorem claim_C8_witness : spec_conclusive ⟨2, 0, 0⟩ :=
  ((claim_C8_conclusive_filter []).1 ⟨2, 0, 0⟩).mp (by decide)

end AnaBook
